import Mathlib

/-!
Verification development for the yamabiko embedded key-value store
(`src/lib.rs`, `src/index.rs` of the two crates).

The store keeps its durable state in a content-addressed object database
(blobs and trees), a commit list and a set of named branches, exactly as
the Rust code drives libgit2.  The object database is modelled as an
append-only list of objects whose object id (`Oid`) is the position at
which the object was written; commits live in their own append-only list
with commit ids being positions as well.  Writing never mutates earlier
objects, which is the libgit2 behaviour the code relies on for structural
sharing.

Keys, path segments and entry names are byte/char lists (`List Char`),
matching Rust `&str` contents; values are byte lists (`List Nat`).
The BLAKE3 hash is an external primitive of the `blake3` crate and is a
parameter `b3 : List Char → List Nat` of every operation that hashes
(it always produces 32 bytes in reality; the model indexes its first two
bytes with a default, which coincides with the code whenever the hash has
at least two bytes).
-/

namespace Yamabiko

/-- Equality of `Except` results is decidable when both components are. -/
instance {ε α : Type} [DecidableEq ε] [DecidableEq α] : DecidableEq (Except ε α) := fun
  | .ok a, .ok b =>
      if h : a = b then .isTrue (by rw [h]) else .isFalse (by simp [h])
  | .ok _, .error _ => .isFalse (by simp)
  | .error _, .ok _ => .isFalse (by simp)
  | .error a, .error b =>
      if h : a = b then .isTrue (by rw [h]) else .isFalse (by simp [h])

/-- An object of the store: a blob (raw bytes) or a tree.  A tree is a list
of entries `(name, object id, filemode)`, as assembled by a libgit2
treebuilder seeded from an existing tree. -/
inductive Obj where
  | blob : List Nat → Obj
  | tree : List (List Char × Nat × Nat) → Obj
deriving DecidableEq

/-- Tree entry: `(name, oid, filemode)`. -/
abbrev TreeEnt := List Char × Nat × Nat

/-- A commit object: its root tree oid and its parent commit ids
(`commit_create_buffer`'s `tree` and `parents` arguments). -/
structure CommitObj where
  tree : Nat
  parents : List Nat
deriving DecidableEq

/-- The repository state owned by a `Collection`: the object database,
the commit list and the local branches (`name ↦ commit id`).  As in the
source's test setup, `HEAD` is attached to branch `main`. -/
structure Repo where
  odb : List Obj
  commits : List CommitObj
  branches : List (String × Nat)
deriving DecidableEq

/-- Association-list lookup for branches (`find_branch`). -/
def lookupBr : List (String × Nat) → String → Option Nat
  | [], _ => none
  | b :: bs, n => if b.1 = n then some b.2 else lookupBr bs n

/-- `set_target` / forced `branch` creation: update the binding if the
name is present, append it otherwise. -/
def upsertBr : List (String × Nat) → String → Nat → List (String × Nat)
  | [], n, v => [(n, v)]
  | b :: bs, n, v => if b.1 = n then (n, v) :: bs else b :: upsertBr bs n v

/-- Entry lookup in a treebuilder / tree (`TreeBuilder::get`,
`Tree::get_name`): first entry with the given name. -/
def entFind : List TreeEnt → List Char → Option (Nat × Nat)
  | [], _ => none
  | e :: es, n => if e.1 = n then some e.2 else entFind es n

/-- `TreeBuilder::insert`: replace the entry with the same name if present,
append otherwise. -/
def insertEnt : List TreeEnt → List Char → Nat → Nat → List TreeEnt
  | [], n, oid, m => [(n, oid, m)]
  | e :: es, n, oid, m =>
      if e.1 = n then (n, oid, m) :: es else e :: insertEnt es n oid m

/-- `Repository::blob`: write a blob, returning the extended odb and the
new object id. -/
def writeBlob (odb : List Obj) (data : List Nat) : List Obj × Nat :=
  (odb ++ [Obj.blob data], odb.length)

/-- `TreeBuilder::write`: write a tree object, returning the extended odb
and the new object id. -/
def writeTree (odb : List Obj) (es : List TreeEnt) : List Obj × Nat :=
  (odb ++ [Obj.tree es], odb.length)

/-- `find_tree` / `into_tree`: read an oid as a tree; `none` models the
lookup error (missing object or object of another kind). -/
def readTree (odb : List Obj) (oid : Nat) : Option (List TreeEnt) :=
  match odb.get? oid with
  | some (Obj.tree es) => some es
  | _ => none

/-- Rust `format!("{val:o}")` for a byte: base-8 digits, most significant
first, no zero padding (recursion through `n / 8` on a fuel that starts at
`n`, which always suffices). -/
def octChars : Nat → Nat → List Char
  | 0, _ => []
  | fuel + 1, n => if n = 0 then [] else octChars fuel (n / 8) ++ [Nat.digitChar (n % 8)]

/-- The octal rendering used for fan-out directory names (`"{:o}"`,
which prints `"0"` for zero). -/
def octStr (n : Nat) : List Char :=
  if n = 0 then ['0'] else octChars n n

/-- `Collection::construct_path_to_key`: `oct(h[0]) / oct(h[1]) / key`,
built exactly like the source loop over `x in 0..2`.
(BLAKE3 hashes are 32 bytes, so indexing `h[0]`, `h[1]` cannot fail;
the model reads them with a default.) -/
def constructPathToKey (hash : List Nat) (key : List Char) : List Char :=
  let path := (List.range 2).foldl
    (fun path x => path ++ octStr (hash.getD x 0) ++ ['/']) []
  path ++ key

/-- Splitting a path on `'/'`, as libgit2's `get_path` walks it. -/
def splitSlash : List Char → List (List Char)
  | [] => [[]]
  | c :: rest =>
      if c = '/' then [] :: splitSlash rest
      else
        match splitSlash rest with
        | s :: ss => (c :: s) :: ss
        | [] => [[c]]

/-- libgit2 tree-entry name validation performed by
`TreeBuilder::insert` (`valid_entry_name`): nonempty, no `'/'`, and not
one of the special git names. -/
def validFilename (n : List Char) : Bool :=
  !n.isEmpty && !n.contains '/' &&
    n ≠ ['.'] && n ≠ ['.', '.'] && n ≠ ['.', 'g', 'i', 't']

/-- Seeding a treebuilder from the child entry of `parent` named `name`
(`parent_tree.get(name)` followed by `to_object(..).into_tree()` in
`make_tree`); an absent entry seeds an empty builder, a present entry
must read back as a tree (otherwise the source `unwrap` aborts, modelled
by `none`). -/
def seedBuilder (odb : List Obj) (parent : List TreeEnt) (name : List Char) :
    Option (List TreeEnt) :=
  match entFind parent name with
  | none => some []
  | some (oid, _) => readTree odb oid

/-- `Collection::make_tree`: splice `(key ↦ blob)` into `rootTree` under
the two-level octal fan-out of the hash bytes `oid[0]`, `oid[1]`.  The
source builds the two child builders going down and then collapses the
stack upward with exactly three `write()` calls; the collapse is written
here in its unrolled order.  `none` models the error/panic paths
(non-tree child entry, invalid key name). -/
def makeTree (odb : List Obj) (oid : List Nat) (rootTree : List TreeEnt)
    (key : List Char) (blob : Nat) : Option (List Obj × Nat) := do
  let b0 := octStr (oid.getD 0 0)
  let t0 ← seedBuilder odb rootTree b0
  let b1 := octStr (oid.getD 1 0)
  let t1 ← seedBuilder odb t0 b1
  if validFilename key then
    let t1 := insertEnt t1 key blob 0o100644
    let (odb, id1) := writeTree odb t1
    let t0 := insertEnt t0 b1 id1 0o040000
    let (odb, id0) := writeTree odb t0
    let root := insertEnt rootTree b0 id0 0o040000
    let (odb, idr) := writeTree odb root
    some (odb, idr)
  else none

/-- `Collection::current_commit`: resolve a branch name to its commit.
`none` is libgit2's not-found outcome (absent branch, or a branch whose
target cannot be peeled to a commit), the case `get` maps to
`InvalidOperationTarget`. -/
def currentCommit (repo : Repo) (branch : String) : Option (Nat × CommitObj) :=
  match lookupBr repo.branches branch with
  | none => none
  | some oid =>
      match repo.commits.get? oid with
      | none => none
      | some c => some (oid, c)

/-- Errors of the path walk done by libgit2's `get_path`:
an absent entry, a dangling object reference met while descending, or a
non-tree object met while descending.  The source converts every one of
them to `None` via `.ok()`. -/
inductive PathErr where
  | notFound
  | objectMissing
  | notATree
deriving DecidableEq

/-- The `get_path` walk: look the head segment up in the current entry
list; descend through tree objects for the remaining segments; the final
segment's entry is returned without reading its object. -/
def getPath (odb : List Obj) (entries : List TreeEnt) :
    List (List Char) → Except PathErr (Nat × Nat)
  | [] => .error .notFound
  | [s] =>
      match entFind entries s with
      | none => .error .notFound
      | some e => .ok e
  | s :: rest =>
      match entFind entries s with
      | none => .error .notFound
      | some (oid, _) =>
          match odb.get? oid with
          | some (Obj.tree es) => getPath odb es rest
          | some (Obj.blob _) => .error .notATree
          | none => .error .objectMissing

/-- Result surface of `Collection::get`:
`ok` (the `Result::Ok` payload), the two dedicated `GetObjectError`
variants, a wrapped underlying git error (`GetObjectError` from
`to_object`), and the panic of `commit.tree().unwrap()`. -/
inductive GetRes where
  | ok : Option (List Nat) → GetRes
  | invalidOperationTarget
  | corruptedObject
  | otherError
  | panicked
deriving DecidableEq

/-- `Collection::get`: construct the path for the key, resolve the branch
(not-found becomes `InvalidOperationTarget`), walk the head commit's tree
(`get_path(..).ok()` turns every walk error into `None`), then read the
found entry (`to_object` failures are surfaced; a non-blob is
`CorruptedObject`). -/
def get (repo : Repo) (hash : List Nat) (key : List Char) (branch : String) : GetRes :=
  let path := constructPathToKey hash key
  match currentCommit repo branch with
  | none => .invalidOperationTarget
  | some (_, c) =>
      match readTree repo.odb c.tree with
      | none => .panicked
      | some entries =>
          match getPath repo.odb entries (splitSlash path) with
          | .error _ => .ok none
          | .ok (oid, _) =>
              match repo.odb.get? oid with
              | none => .otherError
              | some (Obj.blob data) => .ok (some data)
              | some (Obj.tree _) => .corruptedObject

/-- `ReplicationMethod` of the `replica` module. -/
inductive ReplicationMethod where
  | all
  | random (chance : ℚ)
deriving DecidableEq

/-- A registered replica (its unique remote name and selection method). -/
structure Replica where
  remote : String
  method : ReplicationMethod
deriving DecidableEq

/-- `Collection::replicate`: one uniform draw `randRes` is taken before
the loop and shared by every replica; a replica is pushed to when its
method selects it (`All` always, `Random(chance)` when
`randRes > chance`).  The returned list holds the remote names a push
task was spawned for, in replica order. -/
def replicate (replicas : List Replica) (randRes : ℚ) : List String :=
  match replicas with
  | [] => []
  | r :: rest =>
      let selected := match r.method with
        | .all => true
        | .random chance => decide (chance < randRes)
      if selected then r.remote :: replicate rest randRes
      else replicate rest randRes

/-- `Collection::set_batch`: under one lock, read the head commit of the
target branch, iterate `make_tree` over the items (each item first writes
its blob, then splices, then the new root is read back with `find_tree`),
emit one commit whose single parent is the old head, move the branch, and
run the replication fan-out with a fresh draw.  Every `unwrap`/error path
of the source is `none`. -/
def setBatch (b3 : List Char → List Nat) (repo : Repo)
    (items : List (List Char × List Nat)) (branch : String)
    (replicas : List Replica) (randRes : ℚ) : Option (Repo × List String) := do
  let (headOid, commit) ← currentCommit repo branch
  let root0 ← readTree repo.odb commit.tree
  let st ← items.foldlM
    (fun (st : List Obj × List TreeEnt × Nat) item => do
      let (odb, _rootTree, _rootOid) := st
      let (key, value) := item
      let (odb, blob) := writeBlob odb value
      let hash := b3 key
      let (odb, newRoot) ← makeTree odb hash st.2.1 key blob
      let rootTree ← readTree odb newRoot
      some (odb, rootTree, newRoot))
    (repo.odb, root0, commit.tree)
  let newCommit : CommitObj := { tree := st.2.2, parents := [headOid] }
  let commitOid := repo.commits.length
  some ({ odb := st.1,
          commits := repo.commits ++ [newCommit],
          branches := upsertBr repo.branches branch commitOid },
        replicate replicas randRes)

/-- `Collection::create`: a fresh bare repository with one empty tree,
one initial commit on it, and branch `main` at that commit. -/
def createRepo : Repo :=
  { odb := [Obj.tree []]
    commits := [{ tree := 0, parents := [] }]
    branches := [("main", 0)] }

/-- `Collection::new_transaction` with an explicit name: fork a branch at
the head commit (forcing it if it exists).  `none` models the unwraps on
a missing head. -/
def newTransaction (repo : Repo) (name : String) : Option Repo :=
  match currentCommit repo "main" with
  | none => none
  | some (h, _) => some { repo with branches := upsertBr repo.branches name h }

/-- `RevertError` (module `error`): `BranchingHistory { commit }` for a
merge commit met on the walk, plus the wrapped git error of
`target_commit.parent(0)?`. -/
inductive RevertError where
  | branchingHistory (commit : Nat)
  | wrapped
deriving DecidableEq

/-- The `for _ in 0..n` walk of `revert_n_commits`: examine the current
commit; more than one parent fails with `BranchingHistory` carrying the
oid `head` captured before the loop; zero parents breaks out; otherwise
step to the first parent.  The commit the walk stops at is the reset
target. -/
def revertWalk (commits : List CommitObj) (head : Nat) :
    Nat → Nat → CommitObj → Except RevertError Nat
  | 0, cur, _ => .ok cur
  | n + 1, cur, c =>
      if c.parents.length > 1 then .error (.branchingHistory head)
      else
        match c.parents.get? 0 with
        | none => .ok cur
        | some p =>
            match commits.get? p with
            | none => .error .wrapped
            | some pc => revertWalk commits head n p pc

/-- `Collection::revert_n_commits`: `n = 0` is a no-op; otherwise walk
`n` first-parent steps back from `HEAD` (attached to `main`) and
soft-reset `main` to the commit reached.  The outer `none` models the
unwraps on a missing head. -/
def revertNCommits (repo : Repo) (n : Nat) : Option (Except RevertError Repo) :=
  if n = 0 then some (.ok repo)
  else
    match lookupBr repo.branches "main" with
    | none => none
    | some head =>
        match repo.commits.get? head with
        | none => none
        | some c =>
            some ((revertWalk repo.commits head n head c).map
              (fun t => { repo with branches := upsertBr repo.branches "main" t }))

/-- `ConflictResolution` of `apply_transaction`. -/
inductive ConflictResolution where
  | overwrite
  | discardChanges
  | abort
deriving DecidableEq

/-- libgit2 `FileFavor` as configured by `apply_transaction`:
`Theirs` for `Overwrite`, `Ours` for `DiscardChanges`, and the
fail-on-conflict merge for `Abort`. -/
inductive FileFavor where
  | ours
  | theirs
  | normal
deriving DecidableEq

/-- The favor each resolution policy configures. -/
def favorOf : ConflictResolution → FileFavor
  | .overwrite => .theirs
  | .discardChanges => .ours
  | .abort => .normal

/-- Name list without duplicates (keeping the last occurrence), used to
iterate the union of the entry names of the three merge sides. -/
def nubNames : List (List Char) → List (List Char)
  | [] => []
  | n :: rest => if n ∈ rest then nubNames rest else n :: nubNames rest

/-- The names of a tree's entries. -/
def entNames (es : List TreeEnt) : List (List Char) :=
  es.map (fun e => e.1)

/-- Model of one level of libgit2's three-way tree merge, as consumed
through `MergeOptions` by the in-memory rebase (spec §6 external
interface): per name, an unchanged or identically-changed side merges
trivially; two changed tree entries recurse through `rec`; any other
double change is a file-level conflict decided by the favor (`normal`
fails the merge, which is the `fail_on_conflict` behaviour `Abort`
configures).  Entries absent from the merged side are deletions. -/
def mergeLevel
    (rec : List Obj → List TreeEnt → List TreeEnt → List TreeEnt →
      Option (List Obj × List TreeEnt))
    (favor : FileFavor) (bes oes tes : List TreeEnt) :
    List (List Char) → List Obj → List TreeEnt → Option (List Obj × List TreeEnt)
  | [], odb, out => some (odb, out)
  | n :: rest, odb, out =>
      let b := entFind bes n
      let o := entFind oes n
      let t := entFind tes n
      if o = t then
        mergeLevel rec favor bes oes tes rest odb (out ++ (o.map (n, ·)).toList)
      else if b = o then
        mergeLevel rec favor bes oes tes rest odb (out ++ (t.map (n, ·)).toList)
      else if b = t then
        mergeLevel rec favor bes oes tes rest odb (out ++ (o.map (n, ·)).toList)
      else
        match o, t with
        | some (ooid, 0o040000), some (toid, 0o040000) => do
            let oes' ← readTree odb ooid
            let tes' ← readTree odb toid
            let bes' := match b with
              | some (boid, 0o040000) => (readTree odb boid).getD []
              | _ => []
            let (odb, mes) ← rec odb bes' oes' tes'
            let (odb, moid) := writeTree odb mes
            mergeLevel rec favor bes oes tes rest odb (out ++ [(n, moid, 0o040000)])
        | _, _ =>
            match favor with
            | .ours => mergeLevel rec favor bes oes tes rest odb (out ++ (o.map (n, ·)).toList)
            | .theirs => mergeLevel rec favor bes oes tes rest odb (out ++ (t.map (n, ·)).toList)
            | .normal => none

/-- Fuel-indexed three-way tree merge (the fuel bounds the tree depth;
callers pass more fuel than any tree in the odb is deep). -/
def mergeTrees (favor : FileFavor) :
    Nat → List Obj → List TreeEnt → List TreeEnt → List TreeEnt →
    Option (List Obj × List TreeEnt)
  | 0, _, _, _, _ => none
  | fuel + 1, odb, bes, oes, tes =>
      mergeLevel (mergeTrees favor fuel) favor bes oes tes
        (nubNames (entNames bes ++ entNames oes ++ entNames tes)) odb []

/-- Commit ids reachable from `oid` (fuel-indexed; `commits.length + 1`
fuel reaches everything because parents are created before children). -/
def ancestors (commits : List CommitObj) : Nat → Nat → List Nat
  | 0, _ => []
  | fuel + 1, oid =>
      oid :: (((commits.get? oid).map CommitObj.parents).getD []).flatMap
        (ancestors commits fuel)

/-- The rebase operations libgit2 prepares for
`rebase(branch = t, upstream = main)`: the commits reachable from `t`
but not from `main`, replayed oldest first (ascending commit id, which
is topological order here because parents are created before children). -/
def rebaseOps (commits : List CommitObj) (mainOid tOid : Nat) : List Nat :=
  let ancM := ancestors commits (commits.length + 1) mainOid
  let ancT := ancestors commits (commits.length + 1) tOid
  (List.range commits.length).filter (fun o => o ∈ ancT ∧ o ∉ ancM)

/-- State of the `loop` in `apply_transaction`: the growing stores, the
current rebase head, and `current_commit` (the last id
`rebase.commit` returned `Ok` for). -/
structure RebaseSt where
  odb : List Obj
  commits : List CommitObj
  headOid : Nat
  current : Option Nat

/-- One rebase operation: cherry-pick commit `opOid` onto the rebase
head by three-way merging (ancestor = the picked commit's first-parent
tree, ours = rebase head tree, theirs = the picked commit's tree).  Any
failure — conflict under `Abort`, unreadable object — makes
`rebase.commit` fail, which the source's `if let Ok(com)` silently
skips, leaving the state unchanged. -/
def cherryPick (favor : FileFavor) (st : RebaseSt) (opOid : Nat) : RebaseSt :=
  let step : Option RebaseSt := do
    let c ← st.commits.get? opOid
    let baseTree ←
      match c.parents.get? 0 with
      | none => some []
      | some p => do
          let pc ← st.commits.get? p
          readTree st.odb pc.tree
    let hc ← st.commits.get? st.headOid
    let oursTree ← readTree st.odb hc.tree
    let theirsTree ← readTree st.odb c.tree
    let (odb, mes) ← mergeTrees favor (st.odb.length + 1) st.odb baseTree oursTree theirsTree
    let (odb, moid) := writeTree odb mes
    let newOid := st.commits.length
    some { odb := odb
           commits := st.commits ++ [{ tree := moid, parents := [st.headOid] }]
           headOid := newOid
           current := some newOid }
  step.getD st

/-- `Collection::apply_transaction`: resolve both heads, run the
in-memory rebase of branch `name` onto `main` (replaying each prepared
operation), then — if at least one commit was produced — point `main` at
the last recorded id, and finally delete the transaction branch.
`none` models the unwraps on missing branches. -/
def applyTransaction (repo : Repo) (name : String)
    (res : ConflictResolution) : Option Repo := do
  let (mainOid, _) ← currentCommit repo "main"
  let (tOid, _) ← currentCommit repo name
  let ops := rebaseOps repo.commits mainOid tOid
  let st := ops.foldl (cherryPick (favorOf res))
    { odb := repo.odb, commits := repo.commits, headOid := mainOid, current := none }
  let branches := match st.current with
    | some c => upsertBr repo.branches "main" c
    | none => repo.branches
  some { odb := st.odb
         commits := st.commits
         branches := branches.filter (fun b => b.1 ≠ name) }

/-! ## Index subsystem (`src/index.rs` of the yamabiko crate) -/

/-- An entry of an auxiliary on-disk index file (the fields
`create_entry` sets and the ones the claims read). -/
structure IdxEntry where
  path : List Char
  ino : Nat
  id : Nat
  mode : Nat
deriving DecidableEq

/-- `pre` is a leading sequence of `s`. -/
def hasPre : List Char → List Char → Bool
  | [], _ => true
  | _ :: _, [] => false
  | p :: ps, c :: cs => p = c && hasPre ps cs

/-- Byte-wise path order by which libgit2 keeps index entries sorted. -/
def pathLt : List Char → List Char → Bool
  | [], [] => false
  | [], _ :: _ => true
  | _ :: _, [] => false
  | a :: as, b :: bs =>
      if a.toNat < b.toNat then true
      else if b.toNat < a.toNat then false
      else pathLt as bs

/-- `git_index_find_prefix`: the first entry (in the index's sorted
order) whose path starts with the given characters; the index list is
kept sorted by `indexAdd`. -/
def findPre : List IdxEntry → List Char → Option IdxEntry
  | [], _ => none
  | e :: es, p => if hasPre p e.path then some e else findPre es p

/-- `git_index_add`: replace the entry with an equal path, otherwise
insert at the sorted position. -/
def indexAdd : List IdxEntry → IdxEntry → List IdxEntry
  | [], e => [e]
  | x :: xs, e =>
      if x.path = e.path then e :: xs
      else if pathLt e.path x.path then e :: x :: xs
      else x :: indexAdd xs e

/-- Hexadecimal digits of `n`, most significant first, lowercase
(fuel-indexed recursion through `n / 16`). -/
def hexChars : Nat → Nat → List Char
  | 0, _ => []
  | fuel + 1, n => if n = 0 then [] else hexChars fuel (n / 16) ++ [Nat.digitChar (n % 16)]

/-- Rust `format!("{:x}")`: lowercase hex, `"0"` for zero. -/
def hexStr (n : Nat) : List Char :=
  if n = 0 then ['0'] else hexChars n n

/-- Rust `format!("{:16x}")`: the hex digits right-aligned in a field of
width 16, padded with spaces (numeric default alignment). -/
def fmt16x (n : Nat) : List Char :=
  List.replicate (16 - (hexStr n).length) ' ' ++ hexStr n

/-- Value of one hexadecimal digit character. -/
def hexDigitVal (c : Char) : Option Nat :=
  if '0' ≤ c ∧ c ≤ '9' then some (c.toNat - '0'.toNat)
  else if 'a' ≤ c ∧ c ≤ 'f' then some (c.toNat - 'a'.toNat + 10)
  else if 'A' ≤ c ∧ c ≤ 'F' then some (c.toNat - 'A'.toNat + 10)
  else none

/-- Accumulator pass of `u64::from_str_radix(_, 16)`. -/
def parseHexAux : List Char → Nat → Option Nat
  | [], acc => some acc
  | c :: cs, acc =>
      match hexDigitVal c with
      | none => none
      | some v => parseHexAux cs (acc * 16 + v)

/-- `u64::from_str_radix(s, 16)` on the digit forms that occur in index
paths: every character must be a hex digit and the string nonempty
(16 hex digits never overflow a `u64`). -/
def parseHex : List Char → Option Nat
  | [] => none
  | l => parseHexAux l 0

/-- `Index::create_entry` (the counter/path logic; the field's
`to_index_value` token and `to_ino_number` are inputs): find the first
sorted entry whose path starts with the value token; if one exists,
parse its last 16 characters as a hex counter and use that minus one
(u64 arithmetic, wrapping at zero as in a release build; the
`split_at`/parse/`unwrap` failures are `none`); otherwise start at
`u64::MAX`.  Store the new entry at `"{value}/{counter:16x}"` with mode
`100644`. -/
def createEntry (idx : List IdxEntry) (value : List Char) (ino oid : Nat) :
    Option (List IdxEntry) := do
  let lastEntry := findPre idx value
  let nextValue ←
    match lastEntry with
    | some e =>
        if 16 ≤ e.path.length then
          (parseHex (e.path.drop (e.path.length - 16))).map
            (fun num => (num + (2 ^ 64 - 1)) % 2 ^ 64)
        else none
    | none => some (2 ^ 64 - 1)
  let path := value ++ '/' :: fmt16x nextValue
  some (indexAdd idx { path := path, ino := ino, id := oid, mode := 0o100644 })

/-- `str::rsplit_once`: split at the last occurrence of `c`, or `none`
when `c` does not occur. -/
def rsplitOnce : List Char → Char → Option (List Char × List Char)
  | [], _ => none
  | x :: xs, c =>
      match rsplitOnce xs c with
      | some (a, b) => some (x :: a, b)
      | none => if x = c then some ([], xs) else none

/-- `IndexType` of the yamabiko crate's `index.rs`. -/
inductive IndexKind where
  | numeric
  | sequential
  | collection
deriving DecidableEq

/-- `IndexType::from_str`. -/
def kindFromStr (s : List Char) : Except (List Char) IndexKind :=
  if s = "numeric".data then .ok .numeric
  else if s = "sequential".data then .ok .sequential
  else if s = "collection".data then .ok .collection
  else .error "No such index type".data

/-- A secondary index `(name, indexed_field, kind)`. -/
structure Index where
  name : List Char
  indexedField : List Char
  kind : IndexKind
deriving DecidableEq

/-- `Index::from_name`: `name.rsplit_once(".").unwrap().0.rsplit_once("#")`;
the outer `none` is the `unwrap` panic when the name has no `'.'`; a
missing `'#'` in the part before the last `'.'` is `Err("No such index")`;
otherwise the characters after the last `'#'` are parsed as the kind. -/
def fromName (name : List Char) : Option (Except (List Char) Index) :=
  match rsplitOnce name '.' with
  | none => none
  | some (before, _) =>
      match rsplitOnce before '#' with
      | none => some (.error "No such index".data)
      | some (f, k) =>
          match kindFromStr k with
          | .error e => some (.error e)
          | .ok kind => some (.ok { name := name, indexedField := f, kind := kind })

/-! ## Helper lemmas -/

theorem bindSomeEq {α β : Type} (a : α) (f : α → Option β) :
    (bind (some a) f : Option β) = f a := rfl

theorem bindNoneEq {α β : Type} (f : α → Option β) :
    (bind (none : Option α) f : Option β) = none := rfl

theorem readTree_append_blob (odb : List Obj) (v : List Nat) (oid : Nat) :
    readTree (odb ++ [Obj.blob v]) oid = readTree odb oid := by
  unfold readTree
  rcases lt_or_ge oid odb.length with h | h
  · rw [List.get?_append h]
  · rw [List.get?_append_right h]
    rcases eq_or_lt_of_le h with h' | h'
    · simp [← h']
    · rw [List.get?_eq_none.mpr h.le]
      obtain ⟨k, hk⟩ : ∃ k, oid - odb.length = k + 1 :=
        ⟨oid - odb.length - 1, by omega⟩
      rw [hk]
      rfl

theorem seedBuilder_append_blob (odb : List Obj) (v : List Nat)
    (p : List TreeEnt) (n : List Char) :
    seedBuilder (odb ++ [Obj.blob v]) p n = seedBuilder odb p n := by
  unfold seedBuilder
  cases entFind p n with
  | none => rfl
  | some e => exact readTree_append_blob odb v e.1

theorem entFind_insertEnt_self (es : List TreeEnt) (n : List Char) (oid m : Nat) :
    entFind (insertEnt es n oid m) n = some (oid, m) := by
  induction es with
  | nil => simp [insertEnt, entFind]
  | cons e es ih =>
      by_cases h : e.1 = n
      · simp [insertEnt, h, entFind]
      · simp [insertEnt, h, entFind, ih]

theorem entFind_insertEnt_ne (es : List TreeEnt) (n n' : List Char) (oid m : Nat)
    (h : n' ≠ n) : entFind (insertEnt es n oid m) n' = entFind es n' := by
  have hne : ¬n = n' := fun hh => h hh.symm
  induction es with
  | nil => simp [insertEnt, entFind, hne]
  | cons e es ih =>
      by_cases he : e.1 = n
      · have he' : ¬e.1 = n' := by rw [he]; exact hne
        simp [insertEnt, he, entFind, hne, he']
      · simp [insertEnt, he, entFind, ih]

theorem lookupBr_upsertBr_self (bs : List (String × Nat)) (n : String) (v : Nat) :
    lookupBr (upsertBr bs n v) n = some v := by
  induction bs with
  | nil => simp [upsertBr, lookupBr]
  | cons b bs ih =>
      by_cases h : b.1 = n
      · simp [upsertBr, h, lookupBr]
      · simp [upsertBr, h, lookupBr, ih]

theorem lookupBr_upsertBr_ne (bs : List (String × Nat)) (n n' : String) (v : Nat)
    (h : n' ≠ n) : lookupBr (upsertBr bs n v) n' = lookupBr bs n' := by
  have hne : ¬n = n' := fun hh => h hh.symm
  induction bs with
  | nil => simp [upsertBr, lookupBr, hne]
  | cons b bs ih =>
      by_cases hb : b.1 = n
      · have hb' : ¬b.1 = n' := by rw [hb]; exact hne
        simp [upsertBr, hb, lookupBr, hne, hb']
      · simp [upsertBr, hb, lookupBr, ih]

theorem octChars_ne_slash (fuel n : Nat) : '/' ∉ octChars fuel n := by
  induction fuel generalizing n with
  | zero => simp [octChars]
  | succ fuel ih =>
      by_cases h : n = 0
      · simp [octChars, h]
      · simp only [octChars, if_neg h, List.mem_append, List.mem_singleton]
        rintro (h' | h')
        · exact ih _ h'
        · have hd : n % 8 < 8 := Nat.mod_lt _ (by norm_num)
          revert h'
          have : ∀ d < 8, Nat.digitChar d ≠ '/' := by decide
          exact fun h' => this _ hd h'.symm

theorem octStr_ne_slash (n : Nat) : '/' ∉ octStr n := by
  unfold octStr
  by_cases h : n = 0
  · simp [h]
  · simpa [h] using octChars_ne_slash n n

theorem splitSlash_of_no_slash (l : List Char) (h : '/' ∉ l) :
    splitSlash l = [l] := by
  induction l with
  | nil => rfl
  | cons c cs ih =>
      have hc : c ≠ '/' := fun hc => h (hc ▸ List.mem_cons_self c cs)
      have hcs : '/' ∉ cs := fun h' => h (List.mem_cons_of_mem c h')
      simp [splitSlash, hc, ih hcs]

theorem splitSlash_append_slash (a rest : List Char) (h : '/' ∉ a) :
    splitSlash (a ++ '/' :: rest) = a :: splitSlash rest := by
  induction a with
  | nil => simp [splitSlash]
  | cons c cs ih =>
      have hc : c ≠ '/' := fun hc => h (hc ▸ List.mem_cons_self c cs)
      have hcs : '/' ∉ cs := fun h' => h (List.mem_cons_of_mem c h')
      have := ih hcs
      simp only [List.cons_append, splitSlash, if_neg hc, List.append_eq, this]

/-- The constructed path in closed form. -/
theorem constructPathToKey_eq (hash : List Nat) (key : List Char) :
    constructPathToKey hash key =
      octStr (hash.getD 0 0) ++ '/' :: (octStr (hash.getD 1 0) ++ '/' :: key) := by
  simp [constructPathToKey, List.range_succ]

theorem splitSlash_constructPathToKey (hash : List Nat) (key : List Char)
    (h : '/' ∉ key) :
    splitSlash (constructPathToKey hash key) =
      [octStr (hash.getD 0 0), octStr (hash.getD 1 0), key] := by
  rw [constructPathToKey_eq,
    splitSlash_append_slash _ _ (octStr_ne_slash _),
    splitSlash_append_slash _ _ (octStr_ne_slash _),
    splitSlash_of_no_slash _ h]

/-- Value of a base-8 ASCII digit string (the reading the spec assigns
to `oct(b)`). -/
def ofOct (l : List Char) : Nat :=
  l.foldl (fun acc c => acc * 8 + (c.toNat - '0'.toNat)) 0

theorem octChars_zero (fuel : Nat) : octChars fuel 0 = [] := by
  cases fuel <;> simp [octChars]

theorem octChars_foldl (fuel n : Nat) (h : n ≤ fuel) (acc : Nat) :
    (octChars fuel n).foldl (fun acc c => acc * 8 + (c.toNat - '0'.toNat)) acc =
      acc * 8 ^ (octChars fuel n).length + n := by
  induction fuel generalizing n acc with
  | zero =>
      have : n = 0 := Nat.le_zero.mp h
      simp [this, octChars]
  | succ fuel ih =>
      by_cases hn : n = 0
      · simp [hn, octChars]
      · have hrec : n / 8 ≤ fuel := by
          have := Nat.div_lt_self (Nat.pos_of_ne_zero hn) (by norm_num : 1 < 8)
          omega
        have hd : (Nat.digitChar (n % 8)).toNat - '0'.toNat = n % 8 := by
          have h8 : n % 8 < 8 := Nat.mod_lt _ (by norm_num)
          have : ∀ d < 8, (Nat.digitChar d).toNat - '0'.toNat = d := by decide
          exact this _ h8
        simp only [octChars, if_neg hn, List.foldl_append, List.foldl_cons,
          List.foldl_nil, List.length_append, List.length_cons, List.length_nil,
          ih _ hrec, hd]
        rw [pow_succ]
        have := Nat.div_add_mod n 8
        ring_nf
        omega

theorem ofOct_octStr (n : Nat) : ofOct (octStr n) = n := by
  unfold octStr ofOct
  by_cases h : n = 0
  · simp [h]
  · rw [if_neg h, octChars_foldl n n le_rfl 0]
    ring

theorem octChars_digits (fuel n : Nat) :
    ∀ c ∈ octChars fuel n, ∃ d, d < 8 ∧ c = Nat.digitChar d := by
  induction fuel generalizing n with
  | zero => simp [octChars]
  | succ fuel ih =>
      by_cases h : n = 0
      · simp [octChars, h]
      · simp only [octChars, if_neg h, List.mem_append, List.mem_singleton]
        rintro c (hc | hc)
        · exact ih _ c hc
        · exact ⟨n % 8, Nat.mod_lt _ (by norm_num), hc⟩

theorem octChars_ne_nil (fuel n : Nat) (hn : n ≠ 0) (h : n ≤ fuel) :
    octChars fuel n ≠ [] := by
  cases fuel with
  | zero => omega
  | succ fuel => simp [octChars, hn]

theorem octChars_head (fuel n : Nat) (hn : n ≠ 0) (h : n ≤ fuel) :
    ∃ d, 0 < d ∧ d < 8 ∧ (octChars fuel n).head? = some (Nat.digitChar d) := by
  induction fuel generalizing n with
  | zero => omega
  | succ fuel ih =>
      by_cases h8 : n / 8 = 0
      · refine ⟨n % 8, ?_, Nat.mod_lt _ (by norm_num), ?_⟩
        · have : n < 8 := by omega
          have := Nat.mod_eq_of_lt this
          omega
        · simp [octChars, hn, h8, octChars_zero]
      · have hrec : n / 8 ≤ fuel := by
          have := Nat.div_lt_self (Nat.pos_of_ne_zero hn) (by norm_num : 1 < 8)
          omega
        obtain ⟨d, hd0, hd8, hd⟩ := ih (n / 8) h8 hrec
        refine ⟨d, hd0, hd8, ?_⟩
        simp only [octChars, if_neg hn]
        rw [List.head?_append_of_ne_nil _ (octChars_ne_nil fuel (n / 8) h8 hrec)]
        exact hd

theorem octStr_head_ne_zero (n : Nat) (hn : n ≠ 0) :
    (octStr n).head? ≠ some '0' := by
  unfold octStr
  rw [if_neg hn]
  obtain ⟨d, hd0, hd8, hd⟩ := octChars_head n n hn le_rfl
  rw [hd]
  have : ∀ d < 8, 0 < d → Nat.digitChar d ≠ '0' := by decide
  simpa using this d hd8 hd0

theorem validFilename_no_slash (k : List Char) (h : validFilename k = true) :
    '/' ∉ k := by
  unfold validFilename at h
  simp only [Bool.and_eq_true, Bool.not_eq_true', decide_eq_true_eq] at h
  intro hm
  have h2 : k.elem '/' = false := h.1.1.1.2
  have h3 : k.elem '/' = true := by simpa using List.elem_iff.mpr hm
  rw [h3] at h2
  cases h2

theorem rsplitOnce_eq_none (l : List Char) (c : Char) :
    rsplitOnce l c = none ↔ c ∉ l := by
  induction l with
  | nil => simp [rsplitOnce]
  | cons x xs ih =>
      simp only [rsplitOnce]
      cases h : rsplitOnce xs c with
      | some ab =>
          have hxs : c ∈ xs := by
            by_contra hc
            rw [ih.mpr hc] at h
            cases h
          simp [List.mem_cons, hxs]
      | none =>
          have hxs : c ∉ xs := ih.mp h
          by_cases hx : x = c
          · simp [hx, List.mem_cons]
          · rw [if_neg hx]
            constructor
            · intro _
              simp only [List.mem_cons, not_or]
              exact ⟨fun hh => hx hh.symm, hxs⟩
            · intro _
              rfl

theorem rsplitOnce_append (a b : List Char) (c : Char) (hb : c ∉ b) :
    rsplitOnce (a ++ c :: b) c = some (a, b) := by
  induction a with
  | nil => simp [rsplitOnce, (rsplitOnce_eq_none b c).mpr hb]
  | cons x xs ih => simp [rsplitOnce, ih]

theorem rsplitOnce_some (l : List Char) (c : Char) (a b : List Char)
    (h : rsplitOnce l c = some (a, b)) : l = a ++ c :: b ∧ c ∉ b := by
  induction l generalizing a b with
  | nil => cases h
  | cons x xs ih =>
      simp only [rsplitOnce] at h
      cases hx : rsplitOnce xs c with
      | some ab =>
          obtain ⟨a1, b1⟩ := ab
          rw [hx] at h
          simp only [Option.some.injEq, Prod.mk.injEq] at h
          obtain ⟨ha, hb⟩ := h
          obtain ⟨h1, h2⟩ := ih a1 b1 hx
          refine ⟨?_, hb ▸ h2⟩
          rw [← ha, ← hb, h1]
          rfl
      | none =>
          rw [hx] at h
          by_cases hxc : x = c
          · rw [if_pos hxc] at h
            simp only [Option.some.injEq, Prod.mk.injEq] at h
            obtain ⟨ha, hb⟩ := h
            refine ⟨?_, ?_⟩
            · rw [← ha, ← hb, hxc]
              rfl
            · rw [← hb]
              exact (rsplitOnce_eq_none xs c).mp hx
          · rw [if_neg hxc] at h
            cases h

/-! ## Claim theorems -/

/-- C2: the storage path for key `K` is `oct(h[0]) / oct(h[1]) / K` for
the BLAKE3 hash bytes `h` of the key (here: for any hash byte output),
it splits back into exactly those three segments whenever the key has no
slash, and `oct` is the base-8 ASCII rendering of a byte with no zero
padding (its digit string evaluates back to the byte, is nonempty, is
made of base-8 digit characters, and has no leading zero). -/
theorem c2_storage_path (hash : List Nat) (key : List Char) :
    constructPathToKey hash key =
      octStr (hash.getD 0 0) ++ '/' :: (octStr (hash.getD 1 0) ++ '/' :: key)
    ∧ ('/' ∉ key →
        splitSlash (constructPathToKey hash key) =
          [octStr (hash.getD 0 0), octStr (hash.getD 1 0), key])
    ∧ (∀ b : Nat, ofOct (octStr b) = b
        ∧ octStr b ≠ []
        ∧ (∀ c ∈ octStr b, ∃ d, d < 8 ∧ c = Nat.digitChar d)
        ∧ (b ≠ 0 → (octStr b).head? ≠ some '0')) := by
  refine ⟨constructPathToKey_eq hash key,
    splitSlash_constructPathToKey hash key, fun b => ⟨ofOct_octStr b, ?_, ?_, octStr_head_ne_zero b⟩⟩
  · unfold octStr
    by_cases h : b = 0
    · simp [h]
    · simpa [h] using octChars_ne_nil b b h le_rfl
  · unfold octStr
    by_cases h : b = 0
    · intro c hc
      rw [if_pos h] at hc
      exact ⟨0, by norm_num, by simpa using hc⟩
    · rw [if_neg h]
      exact octChars_digits b b

/-- C2 witness: a concrete key and hash, splitting back into the three
segments. -/
theorem c2_storage_path_witness :
    splitSlash (constructPathToKey [255, 9] ['k', 'e', 'y']) =
      [octStr (List.getD [255, 9] 0 0), octStr (List.getD [255, 9] 1 0),
        ['k', 'e', 'y']] :=
  (c2_storage_path [255, 9] ['k', 'e', 'y']).2.1 (by decide)

/-- C7 (amended): one shared draw `randRes ∈ [0,1)` selects the
replicas: an `All` replica is always pushed to, a `Random(p)` replica is
pushed to exactly when `randRes > p`; hence `Random(1)` is never pushed
to, while `Random(0)` is pushed to only for the draws with
`randRes > 0` (the draw `randRes = 0` pushes to no `Random` replica,
so `p = 0` does not push on every draw). -/
theorem c7_replication_selection (replicas : List Replica) (randRes : ℚ)
    (h0 : 0 ≤ randRes) (h1 : randRes < 1) :
    replicate replicas randRes =
      (replicas.filter (fun rep =>
        match rep.method with
        | .all => true
        | .random chance => decide (chance < randRes))).map Replica.remote
    ∧ (∀ rep : Replica, rep.method = .all →
        ∀ rest : List Replica,
          replicate (rep :: rest) randRes = rep.remote :: replicate rest randRes)
    ∧ (∀ (rep : Replica) (p : ℚ), rep.method = .random p →
        ∀ rest : List Replica,
          replicate (rep :: rest) randRes =
            (if p < randRes then rep.remote :: replicate rest randRes
             else replicate rest randRes))
    ∧ (∀ rep : Replica, rep.method = .random 1 →
        ∀ rest : List Replica,
          replicate (rep :: rest) randRes = replicate rest randRes) := by
  refine ⟨?_, ?_, ?_, ?_⟩
  · induction replicas with
    | nil => simp [replicate]
    | cons r rest ih =>
        cases hm : r.method with
        | all => simp [replicate, hm, ih, List.filter_cons]
        | random chance =>
            by_cases hc : chance < randRes
            · simp [replicate, hm, hc, ih, List.filter_cons]
            · simp [replicate, hm, hc, ih, List.filter_cons]
  · intro rep hm rest
    simp [replicate, hm]
  · intro rep p hm rest
    by_cases hc : p < randRes
    · simp [replicate, hm, hc]
    · simp [replicate, hm, hc]
  · intro rep hm rest
    have : ¬(1 : ℚ) < randRes := not_lt.mpr h1.le
    simp [replicate, hm, this]

/-- C7 counterexample: at the legal draw `randRes = 0`, a replica with
method `Random(0)` is not pushed to, refuting the claim that `p = 0`
always pushes. -/
theorem c7_p_zero_not_always_pushed :
    (0 : ℚ) ≤ 0 ∧ (0 : ℚ) < 1 ∧
      replicate [{ remote := "a", method := .random 0 }] 0 = [] := by
  refine ⟨le_refl 0, by norm_num, ?_⟩
  simp [replicate]

/-- C7 witness: a concrete fan-out with one `All` and one `Random`
replica at the draw `1/2`. -/
theorem c7_replication_selection_witness :
    replicate [{ remote := "a", method := ReplicationMethod.all },
      { remote := "b", method := ReplicationMethod.random (3/4) }] (1/2) =
      "a" :: replicate [{ remote := "b", method := ReplicationMethod.random (3/4) }] (1/2) :=
  (c7_replication_selection
      [{ remote := "a", method := ReplicationMethod.all },
        { remote := "b", method := ReplicationMethod.random (3/4) }]
      (1/2) (by norm_num) (by norm_num)).2.1
    { remote := "a", method := ReplicationMethod.all } rfl
    [{ remote := "b", method := ReplicationMethod.random (3/4) }]

/-- C10: `Index::from_name` panics (returns no value) exactly on names
without a `'.'`; on a name `before ++ "." ++ after` with the final
`'.'`, it returns `Err` exactly when `before` has no `'#'` or the token
after the last `'#'` of `before` is not one of the recognized kind
names. -/
theorem c10_from_name_panics (name : List Char) :
    (fromName name = none ↔ '.' ∉ name)
    ∧ (∀ before after, name = before ++ '.' :: after → '.' ∉ after →
        ((∃ e, fromName name = some (.error e)) ↔
          ('#' ∉ before ∨
            ∃ f k, before = f ++ '#' :: k ∧ '#' ∉ k ∧
              k ≠ "numeric".data ∧ k ≠ "sequential".data ∧ k ≠ "collection".data))) := by
  constructor
  · unfold fromName
    cases h : rsplitOnce name '.' with
    | none => simp [(rsplitOnce_eq_none name '.').mp h]
    | some ba =>
        obtain ⟨hl, _⟩ := rsplitOnce_some name '.' ba.1 ba.2 (by rw [h])
        have hm : '.' ∈ name := by
          rw [hl]
          exact List.mem_append_right _ (List.mem_cons_self _ _)
        cases hb : rsplitOnce ba.1 '#' with
        | none => simp [hb, hm]
        | some fk =>
            cases hk : kindFromStr fk.2 <;> simp [hb, hk, hm]
  · intro before after hname hafter
    have hsplit : rsplitOnce name '.' = some (before, after) := by
      rw [hname]
      exact rsplitOnce_append before after '.' hafter
    cases hb : rsplitOnce before '#' with
    | none =>
        have hfn : fromName name = some (.error "No such index".data) := by
          simp [fromName, hsplit, hb]
        rw [hfn]
        constructor
        · intro _
          exact Or.inl ((rsplitOnce_eq_none before '#').mp hb)
        · intro _
          exact ⟨"No such index".data, rfl⟩
    | some fk =>
        obtain ⟨f1, k1⟩ := fk
        obtain ⟨hbefore, hknot⟩ := rsplitOnce_some before '#' f1 k1 hb
        have hmem : '#' ∈ before := by
          rw [hbefore]
          exact List.mem_append_right _ (List.mem_cons_self _ _)
        have huniq : ∀ f k, before = f ++ '#' :: k → '#' ∉ k → f = f1 ∧ k = k1 := by
          intro f k hfk hkk
          have heq : rsplitOnce before '#' = some (f, k) := by
            rw [hfk]
            exact rsplitOnce_append f k '#' hkk
          rw [hb] at heq
          simp only [Option.some.injEq, Prod.mk.injEq] at heq
          exact ⟨heq.1.symm, heq.2.symm⟩
        by_cases h1 : k1 = "numeric".data
        · have hfn : fromName name = some (.ok { name := name, indexedField := f1, kind := .numeric }) := by
            simp [fromName, hsplit, hb, kindFromStr, h1]
          rw [hfn]
          constructor
          · rintro ⟨e, he⟩
            cases he
          · rintro (hc | ⟨f, k, hfk, hkk, hkn, _, _⟩)
            · exact absurd hmem hc
            · obtain ⟨_, hk2⟩ := huniq f k hfk hkk
              exact absurd (hk2.symm ▸ h1) hkn
        · by_cases h2 : k1 = "sequential".data
          · have hfn : fromName name = some (.ok { name := name, indexedField := f1, kind := .sequential }) := by
              simp [fromName, hsplit, hb, kindFromStr, h1, h2]
            rw [hfn]
            constructor
            · rintro ⟨e, he⟩
              cases he
            · rintro (hc | ⟨f, k, hfk, hkk, _, hks, _⟩)
              · exact absurd hmem hc
              · obtain ⟨_, hk2⟩ := huniq f k hfk hkk
                exact absurd (hk2.symm ▸ h2) hks
          · by_cases h3 : k1 = "collection".data
            · have hfn : fromName name = some (.ok { name := name, indexedField := f1, kind := .collection }) := by
                simp [fromName, hsplit, hb, kindFromStr, h1, h2, h3]
              rw [hfn]
              constructor
              · rintro ⟨e, he⟩
                cases he
              · rintro (hc | ⟨f, k, hfk, hkk, _, _, hkc⟩)
                · exact absurd hmem hc
                · obtain ⟨_, hk2⟩ := huniq f k hfk hkk
                  exact absurd (hk2.symm ▸ h3) hkc
            · have hfn : fromName name = some (.error "No such index type".data) := by
                simp [fromName, hsplit, hb, kindFromStr, h1, h2, h3]
              rw [hfn]
              constructor
              · intro _
                exact Or.inr ⟨f1, k1, hbefore, hknot, h1, h2, h3⟩
              · intro _
                exact ⟨"No such index type".data, rfl⟩

/-- C10 witness: a name without any `'.'` makes `from_name` panic. -/
theorem c10_from_name_panics_witness :
    fromName "nodot".data = none :=
  (c10_from_name_panics "nodot".data).1.mpr (by decide)

theorem get?_append_add (odb L : List Obj) (k : Nat) :
    (odb ++ L).get? (odb.length + k) = L.get? k := by
  rw [List.get?_append_right (Nat.le_add_right _ _)]
  simp

/-- Inversion of a successful `make_tree`: the seeds it read, the key
validation, and the exact three tree objects it wrote. -/
theorem makeTree_inv (odb : List Obj) (hash : List Nat) (root : List TreeEnt)
    (key : List Char) (blob : Nat) (odb' : List Obj) (r : Nat)
    (h : makeTree odb hash root key blob = some (odb', r)) :
    ∃ s0 s1,
      seedBuilder odb root (octStr (hash.getD 0 0)) = some s0 ∧
      seedBuilder odb s0 (octStr (hash.getD 1 0)) = some s1 ∧
      validFilename key = true ∧
      odb' = odb ++
        [Obj.tree (insertEnt s1 key blob 0o100644),
         Obj.tree (insertEnt s0 (octStr (hash.getD 1 0)) odb.length 0o040000),
         Obj.tree (insertEnt root (octStr (hash.getD 0 0)) (odb.length + 1) 0o040000)] ∧
      r = odb.length + 2 := by
  simp only [makeTree] at h
  cases hs0 : seedBuilder odb root (octStr (hash.getD 0 0)) with
  | none =>
      rw [hs0, bindNoneEq] at h
      cases h
  | some s0 =>
      rw [hs0, bindSomeEq] at h
      cases hs1 : seedBuilder odb s0 (octStr (hash.getD 1 0)) with
      | none =>
          rw [hs1, bindNoneEq] at h
          cases h
      | some s1 =>
          rw [hs1, bindSomeEq] at h
          by_cases hv : validFilename key = true
          · rw [if_pos hv] at h
            refine ⟨s0, s1, rfl, hs1, hv, ?_⟩
            simp only [Option.some.injEq, Prod.mk.injEq] at h
            obtain ⟨ho, hr⟩ := h
            constructor
            · rw [← ho]
              simp [writeTree, List.append_assoc]
            · rw [← hr]
              simp [writeTree]
          · rw [if_neg hv] at h
            cases h

/-- C3: a successful splice extends the object database by exactly three
objects, all trees (nothing below the old length changes), and the new
root shares every entry of the old root other than `oct(h[0])` by object
id; inside the rewritten level-0 directory every entry other than
`oct(h[1])` is shared with the old one, and inside the rewritten level-1
directory every entry other than the key is shared, the key now naming
the new blob. -/
theorem c3_splice_structural_sharing (odb : List Obj) (hash : List Nat)
    (root : List TreeEnt) (key : List Char) (blob : Nat) (odb' : List Obj) (r : Nat)
    (h : makeTree odb hash root key blob = some (odb', r)) :
    odb'.length = odb.length + 3
    ∧ (∀ i, i < odb.length → odb'.get? i = odb.get? i)
    ∧ (∀ j, odb.length ≤ j → j < odb'.length → ∃ es, odb'.get? j = some (Obj.tree es))
    ∧ r = odb.length + 2
    ∧ ∃ rootES, readTree odb' r = some rootES
        ∧ (∀ n, n ≠ octStr (hash.getD 0 0) → entFind rootES n = entFind root n)
        ∧ ∃ s0, seedBuilder odb root (octStr (hash.getD 0 0)) = some s0
          ∧ ∃ oid0, entFind rootES (octStr (hash.getD 0 0)) = some (oid0, 0o040000)
            ∧ ∃ t0ES, readTree odb' oid0 = some t0ES
              ∧ (∀ n, n ≠ octStr (hash.getD 1 0) → entFind t0ES n = entFind s0 n)
              ∧ ∃ s1, seedBuilder odb s0 (octStr (hash.getD 1 0)) = some s1
                ∧ ∃ oid1, entFind t0ES (octStr (hash.getD 1 0)) = some (oid1, 0o040000)
                  ∧ ∃ t1ES, readTree odb' oid1 = some t1ES
                    ∧ (∀ n, n ≠ key → entFind t1ES n = entFind s1 n)
                    ∧ entFind t1ES key = some (blob, 0o100644) := by
  obtain ⟨s0, s1, hs0, hs1, hv, ho, hr⟩ := makeTree_inv odb hash root key blob odb' r h
  subst ho
  subst hr
  refine ⟨by simp, ?_, ?_, rfl, ?_⟩
  · intro i hi
    exact List.get?_append hi
  · intro j hj hj'
    simp only [List.length_append, List.length_cons, List.length_nil] at hj'
    obtain ⟨k, hk⟩ : ∃ k, j = odb.length + k := ⟨j - odb.length, by omega⟩
    have hk3 : k < 3 := by omega
    subst hk
    rw [get?_append_add]
    interval_cases k
    · exact ⟨_, rfl⟩
    · exact ⟨_, rfl⟩
    · exact ⟨_, rfl⟩
  · refine ⟨insertEnt root (octStr (hash.getD 0 0)) (odb.length + 1) 0o040000,
      ?_, ?_, s0, hs0, odb.length + 1, entFind_insertEnt_self ..,
      insertEnt s0 (octStr (hash.getD 1 0)) odb.length 0o040000, ?_, ?_,
      s1, hs1, odb.length, entFind_insertEnt_self ..,
      insertEnt s1 key blob 0o100644, ?_, ?_,
      entFind_insertEnt_self ..⟩
    · unfold readTree
      rw [get?_append_add]
      rfl
    · intro n hn
      exact entFind_insertEnt_ne _ _ _ _ _ hn
    · unfold readTree
      rw [show odb.length + 1 = odb.length + 1 from rfl, get?_append_add]
      rfl
    · intro n hn
      exact entFind_insertEnt_ne _ _ _ _ _ hn
    · unfold readTree
      rw [show odb.length = odb.length + 0 from rfl, get?_append_add]
      rfl
    · intro n hn
      exact entFind_insertEnt_ne _ _ _ _ _ hn

/-- Inversion of a successful empty-batch `set_batch`: the branch head
existed, its tree was readable, and the effect is exactly one new commit
with the same tree, the branch moved to it, and one fan-out. -/
theorem setBatch_nil_inv (b3 : List Char → List Nat) (repo : Repo) (branch : String)
    (rs : List Replica) (r : ℚ) (repo' : Repo) (pushes : List String)
    (h : setBatch b3 repo [] branch rs r = some (repo', pushes)) :
    ∃ headOid c root0, currentCommit repo branch = some (headOid, c)
      ∧ readTree repo.odb c.tree = some root0
      ∧ repo' = { odb := repo.odb,
                  commits := repo.commits ++ [{ tree := c.tree, parents := [headOid] }],
                  branches := upsertBr repo.branches branch repo.commits.length }
      ∧ pushes = replicate rs r := by
  simp only [setBatch] at h
  cases hc : currentCommit repo branch with
  | none =>
      rw [hc, bindNoneEq] at h
      cases h
  | some hdc =>
      obtain ⟨headOid, c⟩ := hdc
      rw [hc, bindSomeEq] at h
      cases hr : readTree repo.odb c.tree with
      | none =>
          rw [hr, bindNoneEq] at h
          cases h
      | some root0 =>
          rw [hr, bindSomeEq] at h
          simp only [List.foldlM_nil, Option.pure_def, bindSomeEq,
            Option.some.injEq, Prod.mk.injEq] at h
          exact ⟨headOid, c, root0, rfl, hr, h.1.symm, h.2.symm⟩

/-- Inversion of a successful single-item `set_batch`: the head and root
tree were read, the two fan-out seeds resolved, the key passed libgit2's
name validation, and the effect is the blob plus the three spliced trees
appended to the object database, one new commit on them whose single
parent is the old head, the branch moved, and one fan-out. -/
theorem setBatch_single_inv (b3 : List Char → List Nat) (repo : Repo)
    (K : List Char) (V : List Nat) (branch : String)
    (rs : List Replica) (r : ℚ) (repo' : Repo) (pushes : List String)
    (h : setBatch b3 repo [(K, V)] branch rs r = some (repo', pushes)) :
    ∃ headOid c root0 s0 s1,
      currentCommit repo branch = some (headOid, c)
      ∧ readTree repo.odb c.tree = some root0
      ∧ seedBuilder repo.odb root0 (octStr ((b3 K).getD 0 0)) = some s0
      ∧ seedBuilder repo.odb s0 (octStr ((b3 K).getD 1 0)) = some s1
      ∧ validFilename K = true
      ∧ repo' = { odb := repo.odb ++
                    [Obj.blob V,
                     Obj.tree (insertEnt s1 K repo.odb.length 0o100644),
                     Obj.tree (insertEnt s0 (octStr ((b3 K).getD 1 0)) (repo.odb.length + 1) 0o040000),
                     Obj.tree (insertEnt root0 (octStr ((b3 K).getD 0 0)) (repo.odb.length + 2) 0o040000)],
                  commits := repo.commits ++ [{ tree := repo.odb.length + 3, parents := [headOid] }],
                  branches := upsertBr repo.branches branch repo.commits.length }
      ∧ pushes = replicate rs r := by
  simp only [setBatch, List.foldlM_cons, List.foldlM_nil, Option.pure_def] at h
  cases hc : currentCommit repo branch with
  | none =>
      rw [hc, bindNoneEq] at h
      cases h
  | some hdc =>
      obtain ⟨headOid, c⟩ := hdc
      rw [hc, bindSomeEq] at h
      cases hr : readTree repo.odb c.tree with
      | none =>
          rw [hr, bindNoneEq] at h
          cases h
      | some root0 =>
          rw [hr, bindSomeEq] at h
          simp only [writeBlob] at h
          cases hm : makeTree (repo.odb ++ [Obj.blob V]) (b3 K) root0 K repo.odb.length with
          | none =>
              rw [hm, bindNoneEq] at h
              cases h
          | some pr =>
              obtain ⟨odbM, newRootM⟩ := pr
              obtain ⟨s0, s1, hs0, hs1, hv, ho, hrr⟩ :=
                makeTree_inv _ _ _ _ _ _ _ hm
              rw [seedBuilder_append_blob] at hs0
              have hs1' : seedBuilder repo.odb s0 (octStr ((b3 K).getD 1 0)) = some s1 := by
                rw [← seedBuilder_append_blob repo.odb V s0 (octStr ((b3 K).getD 1 0))]
                exact hs1
              rw [hm, bindSomeEq] at h
              subst ho
              subst hrr
              have hback : readTree
                  (repo.odb ++ [Obj.blob V] ++
                    [Obj.tree (insertEnt s1 K repo.odb.length 0o100644),
                     Obj.tree (insertEnt s0 (octStr ((b3 K).getD 1 0))
                       (repo.odb ++ [Obj.blob V]).length 0o040000),
                     Obj.tree (insertEnt root0 (octStr ((b3 K).getD 0 0))
                       ((repo.odb ++ [Obj.blob V]).length + 1) 0o040000)])
                  ((repo.odb ++ [Obj.blob V]).length + 2) =
                  some (insertEnt root0 (octStr ((b3 K).getD 0 0))
                    ((repo.odb ++ [Obj.blob V]).length + 1) 0o040000) := by
                unfold readTree
                rw [get?_append_add]
                rfl
              rw [hback, bindSomeEq, bindSomeEq, bindSomeEq] at h
              simp only [Option.some.injEq, Prod.mk.injEq] at h
              refine ⟨headOid, c, root0, s0, s1, rfl, hr, hs0, hs1', hv, ?_, h.2.symm⟩
              rw [← h.1]
              simp [List.append_assoc]

theorem get?_append_self (odb L : List Obj) :
    (odb ++ L).get? odb.length = L.get? 0 := by
  rw [List.get?_append_right le_rfl]
  simp

/-- C9: an empty batch on an existing branch still creates exactly one
new commit: the object database is unchanged, the new commit's tree is
the previous head's tree and its single parent is the previous head, the
branch now points at the fresh commit id, and the replication fan-out is
still evaluated over the replica list with the shared draw. -/
theorem c9_empty_batch_commits (b3 : List Char → List Nat) (repo : Repo)
    (branch : String) (rs : List Replica) (r : ℚ) (repo' : Repo)
    (pushes : List String)
    (h : setBatch b3 repo [] branch rs r = some (repo', pushes)) :
    ∃ headOid c, currentCommit repo branch = some (headOid, c)
      ∧ repo'.odb = repo.odb
      ∧ repo'.commits = repo.commits ++ [{ tree := c.tree, parents := [headOid] }]
      ∧ lookupBr repo'.branches branch = some repo.commits.length
      ∧ repo'.commits.get? repo.commits.length =
          some { tree := c.tree, parents := [headOid] }
      ∧ repo.commits.get? repo.commits.length = none
      ∧ pushes = replicate rs r := by
  obtain ⟨headOid, c, root0, hc, hr, ho, hp⟩ :=
    setBatch_nil_inv b3 repo branch rs r repo' pushes h
  subst ho
  exact ⟨headOid, c, hc, rfl, rfl, lookupBr_upsertBr_self .., List.get?_concat_length ..,
    List.get?_eq_none.mpr le_rfl, hp⟩

/-- C9 witness: an empty batch on a fresh collection. -/
theorem c9_empty_batch_commits_witness :
    ∃ headOid c, currentCommit createRepo "main" = some (headOid, c)
      ∧ (Repo.mk [Obj.tree []]
          [{ tree := 0, parents := [] }, { tree := 0, parents := [0] }]
          [("main", 1)]).odb = createRepo.odb
      ∧ (Repo.mk [Obj.tree []]
          [{ tree := 0, parents := [] }, { tree := 0, parents := [0] }]
          [("main", 1)]).commits =
          createRepo.commits ++ [{ tree := c.tree, parents := [headOid] }]
      ∧ lookupBr (Repo.mk [Obj.tree []]
          [{ tree := 0, parents := [] }, { tree := 0, parents := [0] }]
          [("main", 1)]).branches "main" = some createRepo.commits.length
      ∧ (Repo.mk [Obj.tree []]
          [{ tree := 0, parents := [] }, { tree := 0, parents := [0] }]
          [("main", 1)]).commits.get? createRepo.commits.length =
          some { tree := c.tree, parents := [headOid] }
      ∧ createRepo.commits.get? createRepo.commits.length = none
      ∧ ([] : List String) = replicate [] 0 :=
  c9_empty_batch_commits (fun _ => []) createRepo "main" [] 0
    (Repo.mk [Obj.tree []]
      [{ tree := 0, parents := [] }, { tree := 0, parents := [0] }]
      [("main", 1)]) [] (by decide)

/-- C1: after a successful single-key write on a branch, reading the key
on that branch returns exactly the written bytes, and the branch's head
is a fresh commit (its id was not in use before) whose single parent is
the previous head of the branch. -/
theorem c1_set_get_round_trip (b3 : List Char → List Nat) (repo : Repo)
    (K : List Char) (V : List Nat) (branch : String)
    (rs : List Replica) (r : ℚ) (repo' : Repo) (pushes : List String)
    (h : setBatch b3 repo [(K, V)] branch rs r = some (repo', pushes)) :
    get repo' (b3 K) K branch = .ok (some V)
    ∧ ∃ prevOid prevC newC,
        currentCommit repo branch = some (prevOid, prevC)
        ∧ lookupBr repo'.branches branch = some repo.commits.length
        ∧ repo'.commits.get? repo.commits.length = some newC
        ∧ newC.parents = [prevOid]
        ∧ repo.commits.get? repo.commits.length = none := by
  obtain ⟨headOid, c, root0, s0, s1, hc, hr, hs0, hs1, hv, ho, hp⟩ :=
    setBatch_single_inv b3 repo K V branch rs r repo' pushes h
  subst ho
  have hK : '/' ∉ K := validFilename_no_slash K hv
  constructor
  · have hcc : currentCommit
        { odb := repo.odb ++
            [Obj.blob V,
             Obj.tree (insertEnt s1 K repo.odb.length 0o100644),
             Obj.tree (insertEnt s0 (octStr ((b3 K).getD 1 0)) (repo.odb.length + 1) 0o040000),
             Obj.tree (insertEnt root0 (octStr ((b3 K).getD 0 0)) (repo.odb.length + 2) 0o040000)],
          commits := repo.commits ++ [{ tree := repo.odb.length + 3, parents := [headOid] }],
          branches := upsertBr repo.branches branch repo.commits.length }
        branch = some (repo.commits.length,
          { tree := repo.odb.length + 3, parents := [headOid] }) := by
      unfold currentCommit
      simp only [lookupBr_upsertBr_self, List.get?_concat_length]
    simp only [get, hcc, readTree, get?_append_add, get?_append_self,
      splitSlash_constructPathToKey (b3 K) K hK, getPath,
      entFind_insertEnt_self, List.get?_cons_succ, List.get?_cons_zero]
  · exact ⟨headOid, c, { tree := repo.odb.length + 3, parents := [headOid] }, hc,
      lookupBr_upsertBr_self .., List.get?_concat_length .., rfl,
      List.get?_eq_none.mpr le_rfl⟩

/-- C1 witness: a concrete write/read round trip on a fresh collection. -/
theorem c1_set_get_round_trip_witness :
    get (Repo.mk
        [Obj.tree [], Obj.blob [9], Obj.tree [(['k'], 1, 0o100644)],
         Obj.tree [(['3'], 2, 0o040000)], Obj.tree [(['2'], 3, 0o040000)]]
        [{ tree := 0, parents := [] }, { tree := 4, parents := [0] }]
        [("main", 1)]) [2, 3] ['k'] "main" = .ok (some [9])
    ∧ ∃ prevOid prevC newC,
        currentCommit createRepo "main" = some (prevOid, prevC)
        ∧ lookupBr [("main", 1)] "main" = some createRepo.commits.length
        ∧ ([{ tree := 0, parents := [] }, { tree := 4, parents := [0] }] :
            List CommitObj).get? createRepo.commits.length = some newC
        ∧ newC.parents = [prevOid]
        ∧ createRepo.commits.get? createRepo.commits.length = none :=
  c1_set_get_round_trip (fun _ => [2, 3]) createRepo ['k'] [9] "main" [] 0
    (Repo.mk
      [Obj.tree [], Obj.blob [9], Obj.tree [(['k'], 1, 0o100644)],
       Obj.tree [(['3'], 2, 0o040000)], Obj.tree [(['2'], 3, 0o040000)]]
      [{ tree := 0, parents := [] }, { tree := 4, parents := [0] }]
      [("main", 1)]) [] (by decide)

/-- C3 witness: a concrete splice into the empty root tree writes the
three directory trees and nothing else. -/
theorem c3_splice_structural_sharing_witness :
    ([Obj.tree [], Obj.tree [(['k'], 7, 0o100644)],
      Obj.tree [(['3'], 1, 0o040000)],
      Obj.tree [(['2'], 2, 0o040000)]] : List Obj).length = 1 + 3 ∧
    (3 : Nat) = 1 + 2 := by
  have h := c3_splice_structural_sharing [Obj.tree []] [2, 3] [] ['k'] 7
    [Obj.tree [], Obj.tree [(['k'], 7, 0o100644)],
      Obj.tree [(['3'], 1, 0o040000)],
      Obj.tree [(['2'], 2, 0o040000)]] 3 (by decide)
  exact ⟨h.1, h.2.2.2.1⟩

/-- Forward evaluation of `make_tree` under resolved seeds and a valid
key name. -/
theorem makeTree_eq (odb : List Obj) (hash : List Nat) (root : List TreeEnt)
    (key : List Char) (blob : Nat) (s0 s1 : List TreeEnt)
    (hs0 : seedBuilder odb root (octStr (hash.getD 0 0)) = some s0)
    (hs1 : seedBuilder odb s0 (octStr (hash.getD 1 0)) = some s1)
    (hv : validFilename key = true) :
    makeTree odb hash root key blob = some
      (odb ++
        [Obj.tree (insertEnt s1 key blob 0o100644),
         Obj.tree (insertEnt s0 (octStr (hash.getD 1 0)) odb.length 0o040000),
         Obj.tree (insertEnt root (octStr (hash.getD 0 0)) (odb.length + 1) 0o040000)],
       odb.length + 2) := by
  simp only [makeTree]
  rw [hs0, bindSomeEq, hs1, bindSomeEq, if_pos hv]
  simp [writeTree, List.append_assoc]

/-- Forward evaluation of a successful single-item `set_batch`. -/
theorem setBatch_single_eq (b3 : List Char → List Nat) (repo : Repo)
    (K : List Char) (V : List Nat) (branch : String)
    (rs : List Replica) (r : ℚ) (headOid : Nat) (c : CommitObj)
    (root0 s0 s1 : List TreeEnt)
    (hc : currentCommit repo branch = some (headOid, c))
    (hr : readTree repo.odb c.tree = some root0)
    (hs0 : seedBuilder repo.odb root0 (octStr ((b3 K).getD 0 0)) = some s0)
    (hs1 : seedBuilder repo.odb s0 (octStr ((b3 K).getD 1 0)) = some s1)
    (hv : validFilename K = true) :
    setBatch b3 repo [(K, V)] branch rs r = some
      ({ odb := repo.odb ++
           [Obj.blob V,
            Obj.tree (insertEnt s1 K repo.odb.length 0o100644),
            Obj.tree (insertEnt s0 (octStr ((b3 K).getD 1 0)) (repo.odb.length + 1) 0o040000),
            Obj.tree (insertEnt root0 (octStr ((b3 K).getD 0 0)) (repo.odb.length + 2) 0o040000)],
         commits := repo.commits ++ [{ tree := repo.odb.length + 3, parents := [headOid] }],
         branches := upsertBr repo.branches branch repo.commits.length },
       replicate rs r) := by
  simp only [setBatch, List.foldlM_cons, List.foldlM_nil, Option.pure_def]
  rw [hc, bindSomeEq, hr, bindSomeEq]
  simp only [writeBlob]
  have hs0' : seedBuilder (repo.odb ++ [Obj.blob V]) root0
      (octStr ((b3 K).getD 0 0)) = some s0 := by
    rw [seedBuilder_append_blob]
    exact hs0
  have hs1' : seedBuilder (repo.odb ++ [Obj.blob V]) s0
      (octStr ((b3 K).getD 1 0)) = some s1 := by
    rw [seedBuilder_append_blob]
    exact hs1
  rw [makeTree_eq (repo.odb ++ [Obj.blob V]) (b3 K) root0 K repo.odb.length
    s0 s1 hs0' hs1' hv, bindSomeEq]
  have hback : readTree
      (repo.odb ++ [Obj.blob V] ++
        [Obj.tree (insertEnt s1 K repo.odb.length 0o100644),
         Obj.tree (insertEnt s0 (octStr ((b3 K).getD 1 0))
           (repo.odb ++ [Obj.blob V]).length 0o040000),
         Obj.tree (insertEnt root0 (octStr ((b3 K).getD 0 0))
           ((repo.odb ++ [Obj.blob V]).length + 1) 0o040000)])
      ((repo.odb ++ [Obj.blob V]).length + 2) =
      some (insertEnt root0 (octStr ((b3 K).getD 0 0))
        ((repo.odb ++ [Obj.blob V]).length + 1) 0o040000) := by
    unfold readTree
    rw [get?_append_add]
    rfl
  rw [hback, bindSomeEq, bindSomeEq]
  simp [List.append_assoc]

/-- The revert walk follows a fully linear first-parent chain to its
end: with `chain` listing the visited commit ids (each commit having the
next id as its only parent, and the final commit existing), `n` steps
land on `chain[n]`. -/
theorem revertWalk_ok_chain (commits : List CommitObj) (head : Nat) :
    ∀ (n : Nat) (chain : List Nat) (c0 : CommitObj),
    chain.length = n + 1 →
    (∀ i, i < n → ∃ ci, commits.get? (chain.getD i 0) = some ci ∧
        ci.parents = [chain.getD (i + 1) 0]) →
    commits.get? (chain.getD 0 0) = some c0 →
    (∃ cn, commits.get? (chain.getD n 0) = some cn) →
    revertWalk commits head n (chain.getD 0 0) c0 = .ok (chain.getD n 0)
  | 0, chain, c0, hlen, hlin, hc0, hfin => by simp [revertWalk]
  | n + 1, chain, c0, hlen, hlin, hc0, hfin => by
      cases chain with
      | nil => cases hlen
      | cons a rest =>
          obtain ⟨c0', hc0', hpar⟩ := hlin 0 (Nat.succ_pos n)
          simp only [List.getD_cons_zero, List.getD_cons_succ] at hc0 hc0' hpar hfin ⊢
          rw [hc0] at hc0'
          obtain rfl : c0 = c0' := Option.some.injEq .. ▸ hc0'
          have hstep : ∃ c1, commits.get? (rest.getD 0 0) = some c1 := by
            cases n with
            | zero => exact hfin
            | succ m =>
                obtain ⟨c1, hc1, _⟩ := hlin 1 (by omega)
                simp only [List.getD_cons_succ] at hc1
                exact ⟨c1, hc1⟩
          obtain ⟨c1, hc1⟩ := hstep
          unfold revertWalk
          rw [hpar]
          simp only [List.length_cons, List.length_nil, gt_iff_lt,
            List.get?_cons_zero, hc1]
          rw [if_neg (by omega)]
          refine revertWalk_ok_chain commits head n rest c1 (by simpa using hlen)
            ?_ hc1 hfin
          intro i hi
          have := hlin (i + 1) (by omega)
          simpa only [List.getD_cons_succ] using this

/-- The revert walk stops early at a parentless commit reached after
`k < n` steps. -/
theorem revertWalk_stop_chain (commits : List CommitObj) (head : Nat) :
    ∀ (k n : Nat) (chain : List Nat) (c0 : CommitObj),
    k < n →
    chain.length = k + 1 →
    (∀ i, i < k → ∃ ci, commits.get? (chain.getD i 0) = some ci ∧
        ci.parents = [chain.getD (i + 1) 0]) →
    commits.get? (chain.getD 0 0) = some c0 →
    (∃ ck, commits.get? (chain.getD k 0) = some ck ∧ ck.parents = []) →
    revertWalk commits head n (chain.getD 0 0) c0 = .ok (chain.getD k 0)
  | 0, n, chain, c0, hkn, hlen, hlin, hc0, hfin => by
      obtain ⟨ck, hck, hpar⟩ := hfin
      rw [hc0] at hck
      obtain rfl : c0 = ck := Option.some.injEq .. ▸ hck
      obtain ⟨m, rfl⟩ : ∃ m, n = m + 1 := ⟨n - 1, by omega⟩
      unfold revertWalk
      rw [hpar]
      simp
  | k + 1, n, chain, c0, hkn, hlen, hlin, hc0, hfin => by
      cases chain with
      | nil => cases hlen
      | cons a rest =>
          obtain ⟨c0', hc0', hpar⟩ := hlin 0 (Nat.succ_pos k)
          simp only [List.getD_cons_zero, List.getD_cons_succ] at hc0 hc0' hpar hfin ⊢
          rw [hc0] at hc0'
          obtain rfl : c0 = c0' := Option.some.injEq .. ▸ hc0'
          have hstep : ∃ c1, commits.get? (rest.getD 0 0) = some c1 := by
            cases k with
            | zero => exact ⟨hfin.choose, hfin.choose_spec.1⟩
            | succ m =>
                obtain ⟨c1, hc1, _⟩ := hlin 1 (by omega)
                simp only [List.getD_cons_succ] at hc1
                exact ⟨c1, hc1⟩
          obtain ⟨c1, hc1⟩ := hstep
          obtain ⟨m, rfl⟩ : ∃ m, n = m + 1 := ⟨n - 1, by omega⟩
          unfold revertWalk
          rw [hpar]
          simp only [List.length_cons, List.length_nil, gt_iff_lt,
            List.get?_cons_zero, hc1]
          rw [if_neg (by omega)]
          refine revertWalk_stop_chain commits head k m rest c1 (by omega)
            (by simpa using hlen) ?_ hc1 hfin
          intro i hi
          have := hlin (i + 1) (by omega)
          simpa only [List.getD_cons_succ] using this

/-- The revert walk meets a merge commit after `k < n` steps and fails,
carrying the `head` oid captured before the loop. -/
theorem revertWalk_branch_chain (commits : List CommitObj) (head : Nat) :
    ∀ (k n : Nat) (chain : List Nat) (c0 : CommitObj),
    k < n →
    chain.length = k + 1 →
    (∀ i, i < k → ∃ ci, commits.get? (chain.getD i 0) = some ci ∧
        ci.parents = [chain.getD (i + 1) 0]) →
    commits.get? (chain.getD 0 0) = some c0 →
    (∃ ck, commits.get? (chain.getD k 0) = some ck ∧ ck.parents.length > 1) →
    revertWalk commits head n (chain.getD 0 0) c0 =
      .error (.branchingHistory head)
  | 0, n, chain, c0, hkn, hlen, hlin, hc0, hfin => by
      obtain ⟨ck, hck, hpar⟩ := hfin
      rw [hc0] at hck
      obtain rfl : c0 = ck := Option.some.injEq .. ▸ hck
      obtain ⟨m, rfl⟩ : ∃ m, n = m + 1 := ⟨n - 1, by omega⟩
      unfold revertWalk
      rw [if_pos hpar]
  | k + 1, n, chain, c0, hkn, hlen, hlin, hc0, hfin => by
      cases chain with
      | nil => cases hlen
      | cons a rest =>
          obtain ⟨c0', hc0', hpar⟩ := hlin 0 (Nat.succ_pos k)
          simp only [List.getD_cons_zero, List.getD_cons_succ] at hc0 hc0' hpar hfin ⊢
          rw [hc0] at hc0'
          obtain rfl : c0 = c0' := Option.some.injEq .. ▸ hc0'
          have hstep : ∃ c1, commits.get? (rest.getD 0 0) = some c1 := by
            cases k with
            | zero => exact ⟨hfin.choose, hfin.choose_spec.1⟩
            | succ m =>
                obtain ⟨c1, hc1, _⟩ := hlin 1 (by omega)
                simp only [List.getD_cons_succ] at hc1
                exact ⟨c1, hc1⟩
          obtain ⟨c1, hc1⟩ := hstep
          obtain ⟨m, rfl⟩ : ∃ m, n = m + 1 := ⟨n - 1, by omega⟩
          unfold revertWalk
          rw [hpar]
          simp only [List.length_cons, List.length_nil, gt_iff_lt,
            List.get?_cons_zero, hc1]
          rw [if_neg (by omega)]
          refine revertWalk_branch_chain commits head k m rest c1 (by omega)
            (by simpa using hlen) ?_ hc1 hfin
          intro i hi
          have := hlin (i + 1) (by omega)
          simpa only [List.getD_cons_succ] using this

/-- C6 (amended): for `n ≥ 1` with `HEAD` on `main`, `revert_n_commits`
walks backward following first parents: over a strictly linear chain of
`n + 1` commits it soft-resets `main` to the commit `n` steps back; a
parentless commit reached after `k < n` steps stops the walk there and
`main` is reset to it; a commit with more than one parent met after
`k < n` steps fails with `BranchingHistory` whose payload is the branch
head captured at the start of the call (not the merge commit
encountered), and nothing is reset. -/
theorem c6_revert_n_commits (repo : Repo) (n head : Nat) (hc : CommitObj)
    (hn : n ≠ 0)
    (hb : lookupBr repo.branches "main" = some head)
    (hhc : repo.commits.get? head = some hc) :
    (∀ chain : List Nat, chain.length = n + 1 → chain.getD 0 0 = head →
      (∀ i, i < n → ∃ ci, repo.commits.get? (chain.getD i 0) = some ci ∧
          ci.parents = [chain.getD (i + 1) 0]) →
      (∃ cn, repo.commits.get? (chain.getD n 0) = some cn) →
      revertNCommits repo n = some (.ok
        { repo with branches := upsertBr repo.branches "main" (chain.getD n 0) }))
    ∧ (∀ (chain : List Nat) (k : Nat), k < n → chain.length = k + 1 → chain.getD 0 0 = head →
        (∀ i, i < k → ∃ ci, repo.commits.get? (chain.getD i 0) = some ci ∧
            ci.parents = [chain.getD (i + 1) 0]) →
        (∃ ck, repo.commits.get? (chain.getD k 0) = some ck ∧ ck.parents = []) →
        revertNCommits repo n = some (.ok
          { repo with branches := upsertBr repo.branches "main" (chain.getD k 0) }))
    ∧ (∀ (chain : List Nat) (k : Nat), k < n → chain.length = k + 1 → chain.getD 0 0 = head →
        (∀ i, i < k → ∃ ci, repo.commits.get? (chain.getD i 0) = some ci ∧
            ci.parents = [chain.getD (i + 1) 0]) →
        (∃ ck, repo.commits.get? (chain.getD k 0) = some ck ∧
            ck.parents.length > 1) →
        revertNCommits repo n = some (.error (.branchingHistory head))) := by
  refine ⟨?_, ?_, ?_⟩
  · intro chain hlen h0 hlin hfin
    unfold revertNCommits
    rw [if_neg hn]
    simp only [hb, hhc]
    have := revertWalk_ok_chain repo.commits head n chain hc hlen hlin
      (h0.symm ▸ hhc) hfin
    rw [h0] at this
    rw [this]
    rfl
  · intro chain k hkn hlen h0 hlin hfin
    unfold revertNCommits
    rw [if_neg hn]
    simp only [hb, hhc]
    have := revertWalk_stop_chain repo.commits head k n chain hc hkn hlen hlin
      (h0.symm ▸ hhc) hfin
    rw [h0] at this
    rw [this]
    rfl
  · intro chain k hkn hlen h0 hlin hfin
    unfold revertNCommits
    rw [if_neg hn]
    simp only [hb, hhc]
    have := revertWalk_branch_chain repo.commits head k n chain hc hkn hlen hlin
      (h0.symm ▸ hhc) hfin
    rw [h0] at this
    rw [this]
    rfl

/-- C6 counterexample: with history `c3 → c2 → merge(c0, c1)` and `main`
at `3`, `revert_n_commits(2)` meets the merge commit `2` on the walk and
fails — but the error payload is `3`, the branch head at the time of the
call, not the merge commit `2` the claim names. -/
theorem c6_branching_payload_is_head :
    revertNCommits (Repo.mk [Obj.tree []]
        [{ tree := 0, parents := [] }, { tree := 0, parents := [] },
         { tree := 0, parents := [0, 1] }, { tree := 0, parents := [2] }]
        [("main", 3)]) 2 =
      some (.error (.branchingHistory 3))
    ∧ (Repo.mk [Obj.tree []]
        [{ tree := 0, parents := [] }, { tree := 0, parents := [] },
         { tree := 0, parents := [0, 1] }, { tree := 0, parents := [2] }]
        [("main", 3)]).commits.get? 2 =
        some { tree := 0, parents := [0, 1] }
    ∧ (3 : Nat) ≠ 2 := by
  refine ⟨by decide, by decide, by decide⟩

/-- C6 witness: a strictly linear three-commit history reverted by two
steps exposes the initial commit. -/
theorem c6_revert_n_commits_witness :
    revertNCommits (Repo.mk [Obj.tree []]
        [{ tree := 0, parents := [] }, { tree := 0, parents := [0] },
         { tree := 0, parents := [1] }]
        [("main", 2)]) 2 =
      some (.ok (Repo.mk [Obj.tree []]
        [{ tree := 0, parents := [] }, { tree := 0, parents := [0] },
         { tree := 0, parents := [1] }]
        [("main", 0)])) :=
  (c6_revert_n_commits (Repo.mk [Obj.tree []]
      [{ tree := 0, parents := [] }, { tree := 0, parents := [0] },
       { tree := 0, parents := [1] }]
      [("main", 2)]) 2 2 { tree := 0, parents := [1] }
      (by decide) (by decide) (by decide)).1 [2, 1, 0] (by decide) (by decide)
    (by
      intro i hi
      interval_cases i
      · exact ⟨{ tree := 0, parents := [1] }, rfl, rfl⟩
      · exact ⟨{ tree := 0, parents := [0] }, rfl, rfl⟩)
    ⟨{ tree := 0, parents := [] }, rfl⟩

/-- C5 (amended): `get` fails with `InvalidOperationTarget` exactly when
the branch does not resolve to a commit; once the head commit and its
tree are readable, `get` returns `Ok(None)` exactly when the path walk
fails for any reason — an absent segment, but also a dangling or
non-tree object met while descending, every such error being discarded
by `.ok()` — and for a walk that finds an entry, a read failure on the
entry's object is surfaced as a wrapped error, blob bytes are returned,
and a non-blob object is `CorruptedObject`. -/
theorem c5_get_error_cases (repo : Repo) (hash : List Nat) (key : List Char)
    (branch : String) :
    (get repo hash key branch = .invalidOperationTarget ↔
      currentCommit repo branch = none)
    ∧ (∀ hOid c entries, currentCommit repo branch = some (hOid, c) →
        readTree repo.odb c.tree = some entries →
        ((get repo hash key branch = .ok none ↔
            ∃ e, getPath repo.odb entries
              (splitSlash (constructPathToKey hash key)) = .error e)
          ∧ ∀ oid m, getPath repo.odb entries
              (splitSlash (constructPathToKey hash key)) = .ok (oid, m) →
              ((repo.odb.get? oid = none → get repo hash key branch = .otherError)
               ∧ (∀ data, repo.odb.get? oid = some (.blob data) →
                    get repo hash key branch = .ok (some data))
               ∧ (∀ es, repo.odb.get? oid = some (.tree es) →
                    get repo hash key branch = .corruptedObject)))) := by
  constructor
  · unfold get
    cases hc : currentCommit repo branch with
    | none => simp
    | some pr =>
        obtain ⟨hOid, c⟩ := pr
        cases hr : readTree repo.odb c.tree with
        | none => simp [hr]
        | some entries =>
            cases hp : getPath repo.odb entries
                (splitSlash (constructPathToKey hash key)) with
            | error e => simp [hr, hp]
            | ok em =>
                obtain ⟨oid, m⟩ := em
                cases ho : repo.odb[oid]? with
                | none => simp [hr, hp, ho]
                | some o => cases o <;> simp [hr, hp, ho]
  · intro hOid c entries hc hr
    constructor
    · unfold get
      rw [hc]
      cases hp : getPath repo.odb entries
          (splitSlash (constructPathToKey hash key)) with
      | error e => simp [hr, hp]
      | ok em =>
          obtain ⟨oid, m⟩ := em
          cases ho : repo.odb[oid]? with
          | none => simp [hr, hp, ho]
          | some o => cases o <;> simp [hr, hp, ho]
    · intro oid m hp
      refine ⟨?_, ?_, ?_⟩
      · intro ho
        unfold get
        simp only [hc, hr, hp, ho]
      · intro data ho
        unfold get
        simp only [hc, hr, hp, ho]
      · intro es ho
        unfold get
        simp only [hc, hr, hp, ho]

/-- C5 counterexample: a repository whose root tree names a level-1
directory entry that points at a missing object.  Every path segment up
to that point exists, yet `get` returns the normal `Ok(None)` instead of
surfacing the read failure — `get_path(..).ok()` discards the error. -/
theorem c5_swallowed_read_failure :
    get (Repo.mk [Obj.tree [(['1'], 5, 0o040000)]]
        [{ tree := 0, parents := [] }] [("main", 0)]) [1, 0] ['k'] "main" =
      .ok none
    ∧ entFind [(['1'], 5, 0o040000)] ['1'] = some (5, 0o040000)
    ∧ (Repo.mk [Obj.tree [(['1'], 5, 0o040000)]]
        [{ tree := 0, parents := [] }] [("main", 0)]).odb.get? 5 = none
    ∧ getPath [Obj.tree [(['1'], 5, 0o040000)]] [(['1'], 5, 0o040000)]
        (splitSlash (constructPathToKey [1, 0] ['k'])) =
      .error .objectMissing := by
  refine ⟨by decide, by decide, by decide, by decide⟩

/-- C5 witness: a leaf that resolves to a tree object is reported as
`CorruptedObject`. -/
theorem c5_get_error_cases_witness :
    get (Repo.mk
        [Obj.tree [(['1'], 1, 0o040000)], Obj.tree [(['0'], 2, 0o040000)],
         Obj.tree [(['k'], 3, 0o040000)], Obj.tree []]
        [{ tree := 0, parents := [] }] [("main", 0)]) [1, 0] ['k'] "main" =
      .corruptedObject :=
  (((c5_get_error_cases (Repo.mk
        [Obj.tree [(['1'], 1, 0o040000)], Obj.tree [(['0'], 2, 0o040000)],
         Obj.tree [(['k'], 3, 0o040000)], Obj.tree []]
        [{ tree := 0, parents := [] }] [("main", 0)]) [1, 0] ['k'] "main").2
      0 { tree := 0, parents := [] } [(['1'], 1, 0o040000)]
      (by decide) (by decide)).2 3 0o040000 (by decide)).2.2 [] (by decide)

/-- C8 counterexample: on an index holding the entry
`"v/0000000000000001"`, `create_entry` for value token `"v"` stores the
new entry at `"v/               0"` — the counter is rendered by
`format!("{:16x}")`, space-padded to width 16, not by `{:016x}`
(`"v/0000000000000000"` appears nowhere); and on an index holding only
`"vx/0000000000000005"`, although no entry with prefix `"v/"` exists
(so the claim would start the counter at `u64::MAX`), the prefix search
runs on `"v"` alone, finds it, and the new entry continues downward from
its counter instead. -/
theorem c8_create_entry_counterexample :
    createEntry [{ path := "v/0000000000000001".data, ino := 1, id := 5, mode := 0o100644 }]
        "v".data 1 9 =
      some [{ path := "v/               0".data, ino := 1, id := 9, mode := 0o100644 },
        { path := "v/0000000000000001".data, ino := 1, id := 5, mode := 0o100644 }]
    ∧ "v/               0".data ≠ "v/0000000000000000".data
    ∧ hasPre "v/".data "vx/0000000000000005".data = false
    ∧ createEntry [{ path := "vx/0000000000000005".data, ino := 1, id := 5, mode := 0o100644 }]
        "v".data 1 9 =
      some [{ path := "v/               4".data, ino := 1, id := 9, mode := 0o100644 },
        { path := "vx/0000000000000005".data, ino := 1, id := 5, mode := 0o100644 }]
    ∧ "v/               4".data ≠ "v/ffffffffffffffff".data := by
  refine ⟨by decide, by decide, by decide, by decide, by decide⟩

/-- C8 (amended): `create_entry` searches for the first sorted entry
whose path starts with the value token (without a trailing slash);
if none exists the counter is `u64::MAX`, otherwise it is one less
(wrapping u64 subtraction) than the counter parsed from the last 16
characters of the found path; the new entry is stored at
`"{value}/{counter:16x}"` — space-padded, 16-wide lowercase hex — with
mode `100644`; while the parsed counter is nonzero the fresh counter is
strictly smaller, and the counter of a fresh bucket renders as the 16
hex digits `ffffffffffffffff`. -/
theorem c8_create_entry_counters (idx : List IdxEntry) (value : List Char)
    (ino oid : Nat) :
    (findPre idx value = none →
      createEntry idx value ino oid =
        some (indexAdd idx
          { path := value ++ '/' :: fmt16x (2 ^ 64 - 1), ino := ino, id := oid,
            mode := 0o100644 })
      ∧ fmt16x (2 ^ 64 - 1) = "ffffffffffffffff".data)
    ∧ (∀ e c, findPre idx value = some e → 16 ≤ e.path.length →
        parseHex (e.path.drop (e.path.length - 16)) = some c →
        createEntry idx value ino oid =
          some (indexAdd idx
            { path := value ++ '/' :: fmt16x ((c + (2 ^ 64 - 1)) % 2 ^ 64),
              ino := ino, id := oid, mode := 0o100644 })
        ∧ (c ≠ 0 → c < 2 ^ 64 → (c + (2 ^ 64 - 1)) % 2 ^ 64 < c)) := by
  constructor
  · intro h
    exact ⟨by simp [createEntry, h], by decide⟩
  · intro e c he hlen hc
    constructor
    · simp [createEntry, he, hlen, hc]
    · intro hc0 hclt
      omega

/-- C8 witness: creating the first entry of a bucket on an empty index. -/
theorem c8_create_entry_counters_witness :
    createEntry [] "v".data 1 9 =
      some (indexAdd []
        { path := "v".data ++ '/' :: fmt16x (2 ^ 64 - 1), ino := 1, id := 9,
          mode := 0o100644 })
    ∧ fmt16x (2 ^ 64 - 1) = "ffffffffffffffff".data :=
  (c8_create_entry_counters [] "v".data 1 9).1 (by decide)

end Yamabiko
